import Mathlib

/-!
Verification development for the `fragments` repository: a shallow embedding
of the Fragment Acknowledgement NFT ledger (`src/contracts/fa-nft/lib.rs`)
and of the round controller (`src/contracts/round/lib.rs`), together with
theorems settling the frozen specification claims.

Modelling conventions:
* `AccountId` (32 raw bytes in the source) is modelled as `Nat`; the reserved
  null account `AccountId::from([0x0; 32])` is `0`.
* ink! `Mapping` is modelled as an association list with overwrite-on-insert
  semantics (`alInsert` first erases the key, so keys stay distinct).
* Every ink! message is modelled in two layers, mirroring the platform:
  an inner function that threads the partially mutated in-memory state
  exactly in the source's statement order, and a message-level wrapper
  (`msgRun`) that reverts to the pre-call state when the message ends in
  `Err` or in a panic.  This revert-on-error dispatch semantics is the
  documented behaviour of the contract (module doc of `fa-nft/lib.rs`,
  lines 10-15: a state-modifying function "does not changes the state if
  the `Error` occurs", and a panic "rolls back the transaction").
* u32 arithmetic from the source (`checked_add(1).unwrap()`,
  `checked_sub(1).unwrap()`) is modelled on `Nat` with the exact overflow /
  underflow conditions leading to the panic outcome `fatal`.
-/

/-- Result of running an ink! message: a returned value, a returned business
error, or a panic (`fatal`) that aborts the whole unit of work. -/
inductive MsgResult (ε α : Type) where
  | ok : α → MsgResult ε α
  | err : ε → MsgResult ε α
  | fatal : MsgResult ε α
deriving DecidableEq, Repr

/-- Association-list lookup, modelling `ink::storage::Mapping::get`. -/
def alGet {α β : Type} [DecidableEq α] (m : List (α × β)) (k : α) : Option β :=
  (m.find? (fun p => decide (p.1 = k))).map Prod.snd

/-- Association-list removal, modelling `Mapping::remove`. -/
def alRemove {α β : Type} [DecidableEq α] (m : List (α × β)) (k : α) : List (α × β) :=
  m.filter (fun p => decide (p.1 ≠ k))

/-- Association-list overwrite-insert, modelling `Mapping::insert`. -/
def alInsert {α β : Type} [DecidableEq α] (m : List (α × β)) (k : α) (v : β) :
    List (α × β) :=
  (k, v) :: alRemove m k

/-- Association-list membership, modelling `Mapping::contains`. -/
def alContains {α β : Type} [DecidableEq α] (m : List (α × β)) (k : α) : Bool :=
  (alGet m k).isSome

/-! ### Blake2b-128

The token-id derivation in the source uses `ink::env::hash::Blake2x128`,
which is BLAKE2b (RFC 7693) with an unkeyed 16-byte digest.  Bytes are
modelled as `Nat` values below 256 and 64-bit words as `Nat` values reduced
modulo `2 ^ 64`. -/

def mask64 : Nat := 2 ^ 64 - 1

def add64 (x y : Nat) : Nat := (x + y) % 2 ^ 64

def xor64 (x y : Nat) : Nat := Nat.xor x y

/-- Right rotation of a 64-bit word: the two shifted parts occupy disjoint
bit ranges, so their sum equals their bitwise or. -/
def rotr64 (x n : Nat) : Nat := x / 2 ^ n + x % 2 ^ n * 2 ^ (64 - n)

def lget (v : List Nat) (i : Nat) : Nat := v.getD i 0

def lset (v : List Nat) (i : Nat) (x : Nat) : List Nat := v.set i x

/-- BLAKE2b initialisation vector. -/
def blakeIV : List Nat :=
  [0x6a09e667f3bcc908, 0xbb67ae8584caa73b, 0x3c6ef372fe94f82b, 0xa54ff53a5f1d36f1,
   0x510e527fade682d1, 0x9b05688c2b3e6c1f, 0x1f83d9abfb41bd6b, 0x5be0cd19137e2179]

/-- BLAKE2b message schedule (rounds 10 and 11 reuse rows 0 and 1). -/
def blakeSigma : Nat → List Nat
  | 0 => [0, 1, 2, 3, 4, 5, 6, 7, 8, 9, 10, 11, 12, 13, 14, 15]
  | 1 => [14, 10, 4, 8, 9, 15, 13, 6, 1, 12, 0, 2, 11, 7, 5, 3]
  | 2 => [11, 8, 12, 0, 5, 2, 15, 13, 10, 14, 3, 6, 7, 1, 9, 4]
  | 3 => [7, 9, 3, 1, 13, 12, 11, 14, 2, 6, 5, 10, 4, 0, 15, 8]
  | 4 => [9, 0, 5, 7, 2, 4, 10, 15, 14, 1, 11, 12, 6, 8, 3, 13]
  | 5 => [2, 12, 6, 10, 0, 11, 8, 3, 4, 13, 7, 5, 15, 14, 1, 9]
  | 6 => [12, 5, 1, 15, 14, 13, 4, 10, 0, 7, 6, 3, 9, 2, 8, 11]
  | 7 => [13, 11, 7, 14, 12, 1, 3, 9, 5, 0, 15, 4, 8, 6, 2, 10]
  | 8 => [6, 15, 14, 9, 11, 3, 0, 8, 12, 2, 13, 7, 1, 4, 10, 5]
  | _ => [10, 2, 8, 4, 7, 6, 1, 5, 15, 11, 9, 14, 3, 12, 13, 0]

/-- BLAKE2b mixing function G on the 16-word working vector. -/
def blakeG (v : List Nat) (a b c d x y : Nat) : List Nat :=
  let va := add64 (add64 (lget v a) (lget v b)) x
  let vd := rotr64 (xor64 (lget v d) va) 32
  let vc := add64 (lget v c) vd
  let vb := rotr64 (xor64 (lget v b) vc) 24
  let va2 := add64 (add64 va vb) y
  let vd2 := rotr64 (xor64 vd va2) 16
  let vc2 := add64 vc vd2
  let vb2 := rotr64 (xor64 vb vc2) 63
  lset (lset (lset (lset v a va2) b vb2) c vc2) d vd2

/-- One BLAKE2b round: eight G applications following the schedule. -/
def blakeRound (m : List Nat) (v : List Nat) (i : Nat) : List Nat :=
  let s := blakeSigma (i % 10)
  let mi := fun j => lget m (lget s j)
  let v1 := blakeG v 0 4 8 12 (mi 0) (mi 1)
  let v2 := blakeG v1 1 5 9 13 (mi 2) (mi 3)
  let v3 := blakeG v2 2 6 10 14 (mi 4) (mi 5)
  let v4 := blakeG v3 3 7 11 15 (mi 6) (mi 7)
  let v5 := blakeG v4 0 5 10 15 (mi 8) (mi 9)
  let v6 := blakeG v5 1 6 11 12 (mi 10) (mi 11)
  let v7 := blakeG v6 2 7 8 13 (mi 12) (mi 13)
  blakeG v7 3 4 9 14 (mi 14) (mi 15)

/-- BLAKE2b compression function F. -/
def blakeCompress (h : List Nat) (m : List Nat) (t : Nat) (last : Bool) : List Nat :=
  let v0 := h ++ blakeIV
  let v1 := lset v0 12 (xor64 (lget v0 12) (t % 2 ^ 64))
  let v2 := lset v1 13 (xor64 (lget v1 13) (t / 2 ^ 64))
  let v3 := if last then lset v2 14 (xor64 (lget v2 14) mask64) else v2
  let vf := (List.range 12).foldl (blakeRound m) v3
  (List.range 8).map (fun i => xor64 (lget h i) (xor64 (lget vf i) (lget vf (i + 8))))

/-- Little-endian byte decomposition of a value into `n` bytes. -/
def toLEBytes : Nat → Nat → List Nat
  | 0, _ => []
  | n + 1, v => v % 256 :: toLEBytes n (v / 256)

/-- Little-endian byte recomposition. -/
def fromLEBytes (l : List Nat) : Nat := l.foldr (fun b acc => b + 256 * acc) 0

/-- Big-endian interpretation of a byte list, modelling `u64::from_be_bytes`. -/
def fromBEBytes (l : List Nat) : Nat := l.foldl (fun acc b => acc * 256 + b) 0

/-- Split a 128-byte block into sixteen little-endian 64-bit words. -/
def bytesToWords (b : List Nat) : List Nat :=
  (List.range 16).map (fun i => fromLEBytes ((b.drop (8 * i)).take 8))

/-- Iterate the compression function over the 128-byte blocks of a message
starting at byte offset `off`.  The first argument is a structural-recursion
fuel: every step consumes 128 message bytes, so any fuel of at least
`msg.length / 128 + 1` runs the loop to completion. -/
def blakeBlocks : Nat → List Nat → List Nat → Nat → List Nat
  | 0, h, _, _ => h
  | fuel + 1, h, msg, off =>
    if msg.length - off ≤ 128 then
      blakeCompress h
        (bytesToWords ((msg.drop off).take 128 ++
          List.replicate (128 - (msg.length - off)) 0))
        msg.length true
    else
      blakeBlocks fuel
        (blakeCompress h (bytesToWords ((msg.drop off).take 128)) (off + 128) false)
        msg (off + 128)

/-- Blake2x128: unkeyed BLAKE2b with a 16-byte digest, as used by
`ink::env::hash::Blake2x128`.  The parameter block sets digest length 16
and key length 0, hence the `0x01010010` tweak of the first state word. -/
def blake2x128 (msg : List Nat) : List Nat :=
  let h0 := lset blakeIV 0 (xor64 (lget blakeIV 0) 0x01010010)
  let h := blakeBlocks (msg.length + 1) h0 msg 0
  toLEBytes 8 (lget h 0) ++ toLEBytes 8 (lget h 1)

namespace fa_nft

/-- A token ID (`pub type TokenId = u64`). -/
abbrev TokenId := Nat

/-- A fragment content id (`pub type FragmentCid = u32`). -/
abbrev FragmentCid := Nat

abbrev AccountId := Nat

abbrev BlockNumber := Nat

/-- SCALE encoding of a `u32`: four little-endian bytes. -/
def encodeU32 (v : Nat) : List Nat := toLEBytes 4 v

/-- SCALE encoding of an `AccountId`: its 32 raw bytes (the modelled
account number in little-endian byte order). -/
def encodeAccount (a : AccountId) : List Nat := toLEBytes 32 a

/-- Token-id derivation, `impl From<TokenRef> for TokenId`: Blake2x128 of
the concatenated SCALE encodings of (fragment cid, owner, block number),
with the first 8 digest bytes read as a big-endian `u64`. -/
def tokenIdOf (fragment_cid : FragmentCid) (owner : AccountId)
    (block_number : BlockNumber) : TokenId :=
  fromBEBytes ((blake2x128 (encodeU32 fragment_cid ++ encodeAccount owner ++
    encodeU32 block_number)).take 8)

/-- Information about a fragment acknowledgment (struct `FragmentAcknowledgement`). -/
structure FragmentAcknowledgement where
  fragment_cid : FragmentCid
  block_number : BlockNumber
deriving DecidableEq, Repr

/-- The ledger error enum (`fa_nft::Error`). -/
inductive Error where
  | NotOwner
  | NotApproved
  | TokenExists
  | TokenNotFound
  | CannotInsert
  | CannotFetchValue
  | NotAllowed
  | NotContractOwner
  | TransferFailed
deriving DecidableEq, Repr

/-- The contract storage (struct `FaNft`). -/
structure FaNft where
  token_owner : List (TokenId × AccountId)
  token_approvals : List (TokenId × AccountId)
  owned_tokens_count : List (AccountId × Nat)
  operator_approvals : List ((AccountId × AccountId) × Unit)
  contract_owner : AccountId
  fragment_acknowledgments : List (TokenId × FragmentAcknowledgement)
deriving DecidableEq, Repr

/-- Constructor `FaNft::new`: empty maps, the deployer becomes contract owner. -/
def new (deployer : AccountId) : FaNft :=
  { token_owner := []
    token_approvals := []
    owned_tokens_count := []
    operator_approvals := []
    contract_owner := deployer
    fragment_acknowledgments := [] }

/-- Message `balance_of` via `balance_of_or_zero`. -/
def balance_of (s : FaNft) (owner : AccountId) : Nat :=
  (alGet s.owned_tokens_count owner).getD 0

/-- Message `owner_of`. -/
def owner_of (s : FaNft) (id : TokenId) : Option AccountId :=
  alGet s.token_owner id

/-- Message `get_approved`. -/
def get_approved (s : FaNft) (id : TokenId) : Option AccountId :=
  alGet s.token_approvals id

/-- Helper `approved_for_all` (read side). -/
def approved_for_all (s : FaNft) (owner operator : AccountId) : Bool :=
  alContains s.operator_approvals (owner, operator)

/-- Message `is_approved_for_all`. -/
def is_approved_for_all (s : FaNft) (owner operator : AccountId) : Bool :=
  approved_for_all s owner operator

/-- Trait method `Ownable::is_owner`. -/
def is_owner (s : FaNft) (account : AccountId) : Bool :=
  s.contract_owner == account

/-- Trait method `Ownable::owner`. -/
def owner (s : FaNft) : AccountId := s.contract_owner

/-- Helper `approved_or_owner`: the caller must be non-null AND be the
owner, the approved delegate of the token, or an operator of the owner. -/
def approved_or_owner (s : FaNft) (frm : AccountId) (id : TokenId)
    (ownr : AccountId) : Bool :=
  decide (frm ≠ 0) &&
    (decide (frm = ownr) || decide (alGet s.token_approvals id = some frm) ||
      approved_for_all s ownr frm)

/-- Helper `clear_approval`. -/
def clear_approval (s : FaNft) (id : TokenId) : FaNft :=
  { s with token_approvals := alRemove s.token_approvals id }

/-- Message `get_fa_info`. -/
def get_fa_info (s : FaNft) (id : TokenId) :
    Option (FragmentAcknowledgement × AccountId) :=
  match alGet s.fragment_acknowledgments id, alGet s.token_owner id with
  | some fa, some ownr => some (fa, ownr)
  | _, _ => none

/-- Message `get_fragment_acknowledgment`. -/
def get_fragment_acknowledgment (s : FaNft) (id : TokenId) :
    Option FragmentAcknowledgement :=
  alGet s.fragment_acknowledgments id

/-- Sequencing of partial-state results: propagate errors and panics,
keeping the state reached so far. -/
def andThen {ε α β : Type} (r : MsgResult ε α × FaNft)
    (f : α → FaNft → MsgResult ε β × FaNft) : MsgResult ε β × FaNft :=
  match r with
  | (.ok a, s) => f a s
  | (.err e, s) => (.err e, s)
  | (.fatal, s) => (.fatal, s)

/-- Helper `add_token_to`: rejects an already-owned id and the null
destination, then increments the destination count (`checked_add(1).unwrap()`
panics exactly on u32 overflow) and records ownership. -/
def add_token_to (s : FaNft) (dst : AccountId) (id : TokenId) :
    MsgResult Error Unit × FaNft :=
  if alContains s.token_owner id then (.err .TokenExists, s)
  else if dst = 0 then (.err .NotAllowed, s)
  else
    match alGet s.owned_tokens_count dst with
    | some c =>
      if c + 1 < 2 ^ 32 then
        (.ok (), { s with
          owned_tokens_count := alInsert s.owned_tokens_count dst (c + 1)
          token_owner := alInsert s.token_owner id dst })
      else (.fatal, s)
    | none =>
      (.ok (), { s with
        owned_tokens_count := alInsert s.owned_tokens_count dst 1
        token_owner := alInsert s.token_owner id dst })

/-- Helper `remove_token_from`: requires the id to be owned, fetches the
source count (`CannotFetchValue` if absent, panic on `checked_sub`
underflow), then decrements and removes ownership. -/
def remove_token_from (s : FaNft) (src : AccountId) (id : TokenId) :
    MsgResult Error Unit × FaNft :=
  if alContains s.token_owner id then
    match alGet s.owned_tokens_count src with
    | none => (.err .CannotFetchValue, s)
    | some c =>
      if c = 0 then (.fatal, s)
      else
        (.ok (), { s with
          owned_tokens_count := alInsert s.owned_tokens_count src (c - 1)
          token_owner := alRemove s.token_owner id })
  else (.err .TokenNotFound, s)

/-- Inner body of message `mint`: `ensure_owner` (panic when the caller is
not the contract owner), derive the id, store the acknowledgement payload,
then `add_token_to`. -/
def mintInner (s : FaNft) (caller : AccountId) (fragment_cid : FragmentCid)
    (ownr : AccountId) (block_number : BlockNumber) :
    MsgResult Error TokenId × FaNft :=
  if s.contract_owner = caller then
    andThen
      (add_token_to
        { s with
          fragment_acknowledgments := alInsert s.fragment_acknowledgments
            (tokenIdOf fragment_cid ownr block_number) ⟨fragment_cid, block_number⟩ }
        ownr (tokenIdOf fragment_cid ownr block_number))
      (fun _ s2 => (.ok (tokenIdOf fragment_cid ownr block_number), s2))
  else (.fatal, s)

/-- Inner body of message `burn`: owner lookup, ownership check, count
fetch (`CannotFetchValue` if absent, panic on underflow), then decrement
and removal. -/
def burnInner (s : FaNft) (caller : AccountId) (id : TokenId) :
    MsgResult Error Unit × FaNft :=
  match alGet s.token_owner id with
  | none => (.err .TokenNotFound, s)
  | some ownr =>
    if ownr ≠ caller then (.err .NotOwner, s)
    else
      match alGet s.owned_tokens_count caller with
      | none => (.err .CannotFetchValue, s)
      | some c =>
        if c = 0 then (.fatal, s)
        else
          (.ok (), { s with
            owned_tokens_count := alInsert s.owned_tokens_count caller (c - 1)
            token_owner := alRemove s.token_owner id })

/-- Helper `transfer_token_from`: authorization check, owner/`src` match,
clear the approval, then move the token. -/
def transfer_token_from (s : FaNft) (caller src dst : AccountId)
    (id : TokenId) : MsgResult Error Unit × FaNft :=
  match alGet s.token_owner id with
  | none => (.err .TokenNotFound, s)
  | some ownr =>
    if approved_or_owner s caller id ownr = false then (.err .NotApproved, s)
    else if ownr ≠ src then (.err .NotOwner, s)
    else
      andThen (remove_token_from (clear_approval s id) src id)
        (fun _ s2 => add_token_to s2 dst id)

/-- Inner body of helper `approve_for` (message `approve`). -/
def approve_for (s : FaNft) (caller dst : AccountId) (id : TokenId) :
    MsgResult Error Unit × FaNft :=
  match alGet s.token_owner id with
  | none => (.err .TokenNotFound, s)
  | some ownr =>
    if ¬ (ownr = caller ∨ approved_for_all s ownr caller = true) then
      (.err .NotAllowed, s)
    else if dst = 0 then (.err .NotAllowed, s)
    else if alContains s.token_approvals id then (.err .CannotInsert, s)
    else (.ok (), { s with token_approvals := alInsert s.token_approvals id dst })

/-- Inner body of helper `approve_for_all` (message `set_approval_for_all`). -/
def approve_for_all_inner (s : FaNft) (caller dst : AccountId)
    (approved : Bool) : MsgResult Error Unit × FaNft :=
  if dst = caller then (.err .NotAllowed, s)
  else if approved then
    (.ok (), { s with
      operator_approvals := alInsert s.operator_approvals (caller, dst) () })
  else
    (.ok (), { s with
      operator_approvals := alRemove s.operator_approvals (caller, dst) })

/-- Message-level dispatch semantics: on `Err` or panic the persisted state
reverts to the pre-call state (module doc of `fa-nft/lib.rs`, lines 10-15). -/
def msgRun {ε α : Type} (s : FaNft) (r : MsgResult ε α × FaNft) :
    MsgResult ε α × FaNft :=
  match r with
  | (.ok a, s1) => (.ok a, s1)
  | (.err e, _) => (.err e, s)
  | (.fatal, _) => (.fatal, s)

/-- Message `mint`. -/
def mint (s : FaNft) (caller : AccountId) (fragment_cid : FragmentCid)
    (ownr : AccountId) (block_number : BlockNumber) :
    MsgResult Error TokenId × FaNft :=
  msgRun s (mintInner s caller fragment_cid ownr block_number)

/-- Message `burn`. -/
def burn (s : FaNft) (caller : AccountId) (id : TokenId) :
    MsgResult Error Unit × FaNft :=
  msgRun s (burnInner s caller id)

/-- Message `transfer`: the source is the caller. -/
def transfer (s : FaNft) (caller dst : AccountId) (id : TokenId) :
    MsgResult Error Unit × FaNft :=
  msgRun s (transfer_token_from s caller caller dst id)

/-- Message `transfer_from`. -/
def transfer_from (s : FaNft) (caller src dst : AccountId) (id : TokenId) :
    MsgResult Error Unit × FaNft :=
  msgRun s (transfer_token_from s caller src dst id)

/-- Message `approve`. -/
def approve (s : FaNft) (caller dst : AccountId) (id : TokenId) :
    MsgResult Error Unit × FaNft :=
  msgRun s (approve_for s caller dst id)

/-- Message `set_approval_for_all`. -/
def set_approval_for_all (s : FaNft) (caller dst : AccountId)
    (approved : Bool) : MsgResult Error Unit × FaNft :=
  msgRun s (approve_for_all_inner s caller dst approved)

/-- Trait message `Ownable::renounce_ownership`: `ensure_owner` panics for
a non-owner caller, otherwise the role is set to the null account. -/
def renounce_ownership (s : FaNft) (caller : AccountId) :
    MsgResult Error Unit × FaNft :=
  if s.contract_owner = caller then (.ok (), { s with contract_owner := 0 })
  else (.fatal, s)

/-- Trait message `Ownable::transfer_ownership`. -/
def transfer_ownership (s : FaNft) (caller new_owner : AccountId) :
    MsgResult Error Unit × FaNft :=
  if s.contract_owner = caller then
    (.ok (), { s with contract_owner := new_owner })
  else (.fatal, s)

/-- Trait message `Transferable::transfer_balance`: only the native balance
is moved (not part of the modelled contract storage); `env().transfer`
either succeeds (`env_ok`) or panics via `unwrap()`. -/
def transfer_balance (s : FaNft) (caller : AccountId) (_dst : AccountId)
    (_value : Nat) (env_ok : Bool) : MsgResult Error Unit × FaNft :=
  if s.contract_owner = caller then
    if env_ok then (.ok (), s) else (.fatal, s)
  else (.fatal, s)

/-- The public state-modifying operation alphabet of the ledger. -/
inductive Op where
  | mint (fragment_cid : FragmentCid) (ownr : AccountId) (block_number : BlockNumber)
  | burn (id : TokenId)
  | transfer (dst : AccountId) (id : TokenId)
  | transfer_from (src dst : AccountId) (id : TokenId)
  | approve (dst : AccountId) (id : TokenId)
  | set_approval_for_all (dst : AccountId) (approved : Bool)
  | renounce_ownership
  | transfer_ownership (new_owner : AccountId)
  | transfer_balance (dst : AccountId) (value : Nat) (env_ok : Bool)
deriving DecidableEq, Repr

/-- Erase a unit return into the uniform dispatch return type. -/
def voidRet (r : MsgResult Error Unit × FaNft) :
    MsgResult Error (Option TokenId) × FaNft :=
  match r with
  | (.ok _, s) => (.ok none, s)
  | (.err e, s) => (.err e, s)
  | (.fatal, s) => (.fatal, s)

/-- Uniform dispatch of a public state-modifying ledger message. -/
def dispatch (s : FaNft) (caller : AccountId) (op : Op) :
    MsgResult Error (Option TokenId) × FaNft :=
  match op with
  | .mint cid ownr bn =>
    match mint s caller cid ownr bn with
    | (.ok id, s1) => (.ok (some id), s1)
    | (.err e, s1) => (.err e, s1)
    | (.fatal, s1) => (.fatal, s1)
  | .burn id => voidRet (burn s caller id)
  | .transfer dst id => voidRet (transfer s caller dst id)
  | .transfer_from src dst id => voidRet (transfer_from s caller src dst id)
  | .approve dst id => voidRet (approve s caller dst id)
  | .set_approval_for_all dst approved =>
    voidRet (set_approval_for_all s caller dst approved)
  | .renounce_ownership => voidRet (renounce_ownership s caller)
  | .transfer_ownership new_owner => voidRet (transfer_ownership s caller new_owner)
  | .transfer_balance dst value env_ok =>
    voidRet (transfer_balance s caller dst value env_ok)

/-- States reachable from a freshly constructed ledger by any sequence of
public operations (successful or failed). -/
inductive Reachable : FaNft → Prop where
  | init (deployer : AccountId) : Reachable (new deployer)
  | step (s : FaNft) (caller : AccountId) (op : Op) :
      Reachable s → Reachable (dispatch s caller op).2

/-- Number of entries of the token-owner map whose current owner is `a`. -/
def countOwned (m : List (TokenId × AccountId)) (a : AccountId) : Nat :=
  (m.filter (fun p => decide (p.2 = a))).length

end fa_nft

namespace fragments_round

/-- The round error enum (`fragments_round::Error`). -/
inductive Error where
  | NotFound
  | CantBeProven
  | ProofInvalid
  | FaNFT (e : fa_nft.Error)
deriving DecidableEq, Repr

/-- A fragment record (struct `Fragment`), immutable after construction. -/
structure Fragment where
  cid : Nat
  mmr_pos : Nat
  release_block : Nat
deriving DecidableEq, Repr

/-- The round storage (struct `FragmentsRound`).  `fa_nft` is the account
handle of the ledger contract instance. -/
structure FragmentsRound where
  fragments : List Fragment
  fa_nft : Nat
  mmr_root : List Nat
  contract_owner : Nat
deriving DecidableEq, Repr

/-- Helper `get_fragment`: first fragment record with the given cid,
`NotFound` when absent. -/
def get_fragment (r : FragmentsRound) (cid : Nat) : Except Error Fragment :=
  match r.fragments.find? (fun f => f.cid == cid) with
  | some f => .ok f
  | none => .error .NotFound

/-- Message `get_fragments`: a full copy of the fragment list. -/
def get_fragments (r : FragmentsRound) : List Fragment := r.fragments

/-- Interface of the external MMR proof verifier
(`ckb_merkle_mountain_range::MerkleProof::verify`): given the proof's
`mmr_size`, its sibling items, the claimed root and the `(position, leaf)`
pairs, it either aborts on malformed proof data (`Except.error`) or reports
whether the recomputed root matches (`Except.ok`).  The library is outside
this repository, so claims about the round are proved for every such
verifier. -/
abbrev VerifyFn := Nat → List (List Nat) → List Nat → List (Nat × List Nat) → Except Unit Bool

/-- Helper `mint_fragment_acknowledgement`: cross-contract call of the
ledger's `mint` message.  The ledger sees the round contract's own account
(`self_acc`) as caller, mints to the round's caller at the current block
number, and any ledger error is wrapped in `Error.FaNFT`. -/
def mint_fragment_acknowledgement (nft : fa_nft.FaNft)
    (self_acc caller : Nat) (block_number : Nat) (cid : Nat) :
    MsgResult Error Unit × fa_nft.FaNft :=
  match fa_nft.mint nft self_acc cid caller block_number with
  | (.ok _, nft1) => (.ok (), nft1)
  | (.err e, nft1) => (.err (.FaNFT e), nft1)
  | (.fatal, nft1) => (.fatal, nft1)

/-- Message `claim_fragment`: fragment lookup (`NotFound` if absent, before
any verification), proof verification against the committed root at the
fragment's recorded position with the leaf built by hashing the submitted
bytes (`CantBeProven` when the verifier aborts, `ProofInvalid` when the
recomputed root does not match), then the ledger mint.  `verify` models the
external MMR library and `sha3` the external `sha3::Sha3_256` used by
`Leaf::from`; the committed root itself is wrapped raw (`Leaf(mmr_root)`),
not re-hashed. -/
def claim_fragment (verify : VerifyFn) (sha3 : List Nat → List Nat)
    (r : FragmentsRound) (nft : fa_nft.FaNft)
    (self_acc caller : Nat) (block_number : Nat)
    (mmr_size : Nat) (proof_items : List (List Nat)) (cid : Nat)
    (hash : List Nat) : MsgResult Error Unit × fa_nft.FaNft :=
  match get_fragment r cid with
  | .error e => (.err e, nft)
  | .ok frag =>
    match verify mmr_size proof_items r.mmr_root [(frag.mmr_pos, sha3 hash)] with
    | .error _ => (.err .CantBeProven, nft)
    | .ok false => (.err .ProofInvalid, nft)
    | .ok true => mint_fragment_acknowledgement nft self_acc caller block_number cid

end fragments_round

/-- Distinctness of the keys of an association list. -/
def KeysNodup {α β : Type} (m : List (α × β)) : Prop :=
  (m.map Prod.fst).Nodup

/-- The checked balance invariant of the ledger: token-owner keys are
distinct and every stored (or defaulted) balance equals the number of
token-owner entries for that account. -/
def fa_nft.BalInv (s : fa_nft.FaNft) : Prop :=
  KeysNodup s.token_owner ∧
    ∀ a, fa_nft.balance_of s a = fa_nft.countOwned s.token_owner a

theorem alGet_cons {α β : Type} [DecidableEq α] (k0 : α) (v0 : β)
    (t : List (α × β)) (k : α) :
    alGet ((k0, v0) :: t) k = if k0 = k then some v0 else alGet t k := by
  by_cases h : k0 = k <;> simp [alGet, List.find?_cons, h]

theorem alGet_insert_self {α β : Type} [DecidableEq α] (m : List (α × β))
    (k : α) (v : β) : alGet (alInsert m k v) k = some v := by
  simp [alInsert, alGet_cons]

theorem alRemove_cons {α β : Type} [DecidableEq α] (k0 : α) (v0 : β)
    (t : List (α × β)) (k : α) :
    alRemove ((k0, v0) :: t) k =
      if k0 = k then alRemove t k else (k0, v0) :: alRemove t k := by
  by_cases h : k0 = k <;> simp [alRemove, List.filter_cons, h]

theorem alGet_remove_self {α β : Type} [DecidableEq α] (m : List (α × β))
    (k : α) : alGet (alRemove m k) k = none := by
  induction m with
  | nil => rfl
  | cons p t ih =>
    obtain ⟨k0, v0⟩ := p
    rw [alRemove_cons]
    by_cases h : k0 = k
    · simpa [h] using ih
    · simpa [alGet_cons, h] using ih

theorem alGet_remove_ne {α β : Type} [DecidableEq α] (m : List (α × β))
    (k k' : α) (h : k' ≠ k) : alGet (alRemove m k) k' = alGet m k' := by
  induction m with
  | nil => rfl
  | cons p t ih =>
    obtain ⟨k0, v0⟩ := p
    rw [alRemove_cons]
    by_cases hk : k0 = k
    · have hne : k0 ≠ k' := by
        intro hc
        exact h (hc ▸ hk)
      simp only [if_pos hk, alGet_cons, if_neg hne]
      exact ih
    · simp only [if_neg hk, alGet_cons]
      by_cases hk' : k0 = k'
      · simp [hk']
      · simpa [hk'] using ih

theorem alGet_insert_ne {α β : Type} [DecidableEq α] (m : List (α × β))
    (k k' : α) (v : β) (h : k' ≠ k) :
    alGet (alInsert m k v) k' = alGet m k' := by
  have h1 : k ≠ k' := fun hc => h hc.symm
  simp only [alInsert, alGet_cons, if_neg h1]
  exact alGet_remove_ne m k k' h

theorem alGet_none_iff {α β : Type} [DecidableEq α] (m : List (α × β))
    (k : α) : alGet m k = none ↔ k ∉ m.map Prod.fst := by
  induction m with
  | nil => simp [alGet]
  | cons p t ih =>
    obtain ⟨k0, v0⟩ := p
    rw [alGet_cons]
    by_cases h : k0 = k
    · simp [h]
    · simp only [if_neg h, List.map_cons, List.mem_cons, ih]
      constructor
      · intro hn
        rintro (rfl | hm)
        · exact h rfl
        · exact hn hm
      · intro hn hm
        exact hn (Or.inr hm)

theorem alRemove_of_get_none {α β : Type} [DecidableEq α] (m : List (α × β))
    (k : α) (h : alGet m k = none) : alRemove m k = m := by
  induction m with
  | nil => rfl
  | cons p t ih =>
    obtain ⟨k0, v0⟩ := p
    rw [alGet_cons] at h
    by_cases hk : k0 = k
    · simp [hk] at h
    · rw [if_neg hk] at h
      rw [alRemove_cons, if_neg hk, ih h]

theorem keysNodup_remove {α β : Type} [DecidableEq α] (m : List (α × β))
    (k : α) (h : KeysNodup m) : KeysNodup (alRemove m k) := by
  unfold KeysNodup at h ⊢
  exact h.sublist (List.Sublist.map Prod.fst (List.filter_sublist m))

theorem not_mem_keys_remove {α β : Type} [DecidableEq α] (m : List (α × β))
    (k : α) : k ∉ (alRemove m k).map Prod.fst := by
  intro hc
  rcases List.mem_map.mp hc with ⟨p, hp, hfst⟩
  rcases List.mem_filter.mp hp with ⟨_, hq⟩
  exact (of_decide_eq_true hq) hfst

theorem keysNodup_insert {α β : Type} [DecidableEq α] (m : List (α × β))
    (k : α) (v : β) (h : KeysNodup m) : KeysNodup (alInsert m k v) := by
  unfold KeysNodup
  simp only [alInsert, List.map_cons]
  exact List.Nodup.cons (not_mem_keys_remove m k) (keysNodup_remove m k h)

namespace fa_nft

theorem countOwned_cons (k0 v0 : Nat) (t : List (Nat × Nat)) (a : Nat) :
    countOwned ((k0, v0) :: t) a = countOwned t a + if v0 = a then 1 else 0 := by
  by_cases h : v0 = a <;> simp [countOwned, List.filter_cons, h]

theorem countOwned_remove_none (m : List (Nat × Nat)) (k a : Nat)
    (h : alGet m k = none) : countOwned (alRemove m k) a = countOwned m a := by
  rw [alRemove_of_get_none m k h]

theorem countOwned_remove_some (m : List (Nat × Nat)) (k w a : Nat)
    (hnd : KeysNodup m) (hg : alGet m k = some w) :
    countOwned m a = countOwned (alRemove m k) a + if w = a then 1 else 0 := by
  induction m with
  | nil => cases hg
  | cons p t ih =>
    obtain ⟨k0, v0⟩ := p
    have hnd' : k0 ∉ t.map Prod.fst ∧ KeysNodup t := by
      simpa [KeysNodup, List.nodup_cons] using hnd
    rw [alGet_cons] at hg
    by_cases hk : k0 = k
    · rw [if_pos hk] at hg
      have hw : w = v0 := by
        cases hg
        rfl
      subst hw
      subst hk
      have ht : alGet t k0 = none := (alGet_none_iff t k0).mpr hnd'.1
      rw [alRemove_cons, if_pos rfl, alRemove_of_get_none t k0 ht, countOwned_cons]
    · rw [if_neg hk] at hg
      rw [alRemove_cons, if_neg hk, countOwned_cons, countOwned_cons,
        ih hnd'.2 hg]
      omega

theorem balInv_inc (s : FaNft) (dst : AccountId) (id : TokenId)
    (hinv : BalInv s) (hgn : alGet s.token_owner id = none) :
    BalInv { s with
      owned_tokens_count := alInsert s.owned_tokens_count dst (balance_of s dst + 1)
      token_owner := alInsert s.token_owner id dst } := by
  constructor
  · exact keysNodup_insert s.token_owner id dst hinv.1
  · intro a
    show (alGet (alInsert s.owned_tokens_count dst (balance_of s dst + 1)) a).getD 0 =
      countOwned (alInsert s.token_owner id dst) a
    have hco : countOwned (alInsert s.token_owner id dst) a =
        countOwned s.token_owner a + if dst = a then 1 else 0 := by
      show countOwned ((id, dst) :: alRemove s.token_owner id) a = _
      rw [countOwned_cons, alRemove_of_get_none s.token_owner id hgn]
    by_cases ha : a = dst
    · subst ha
      rw [alGet_insert_self, hco, if_pos rfl, ← hinv.2 a]
      rfl
    · rw [alGet_insert_ne s.owned_tokens_count dst a _ ha, hco,
        if_neg (fun hc => ha hc.symm)]
      exact hinv.2 a

theorem balInv_dec (s : FaNft) (src : AccountId) (id : TokenId) (c : Nat)
    (hinv : BalInv s) (hgo : alGet s.token_owner id = some src)
    (hc : alGet s.owned_tokens_count src = some c) :
    BalInv { s with
      owned_tokens_count := alInsert s.owned_tokens_count src (c - 1)
      token_owner := alRemove s.token_owner id } := by
  have hsplit := fun a => countOwned_remove_some s.token_owner id src a hinv.1 hgo
  constructor
  · exact keysNodup_remove s.token_owner id hinv.1
  · intro a
    show (alGet (alInsert s.owned_tokens_count src (c - 1)) a).getD 0 =
      countOwned (alRemove s.token_owner id) a
    by_cases ha : a = src
    · subst ha
      rw [alGet_insert_self]
      have hb : balance_of s a = c := by
        unfold balance_of
        rw [hc]
        rfl
      have := hinv.2 a
      have hsp := hsplit a
      rw [if_pos rfl] at hsp
      simp only [Option.getD_some]
      omega
    · rw [alGet_insert_ne s.owned_tokens_count src a _ ha]
      have hsp := hsplit a
      rw [if_neg (fun hc2 => ha hc2.symm)] at hsp
      have := hinv.2 a
      unfold balance_of at this
      omega

end fa_nft

namespace fa_nft

theorem balInv_frame (s : FaNft) (ta : List (TokenId × AccountId))
    (oa : List ((AccountId × AccountId) × Unit)) (co : AccountId)
    (fa : List (TokenId × FragmentAcknowledgement)) (h : BalInv s) :
    BalInv { s with
      token_approvals := ta
      operator_approvals := oa
      contract_owner := co
      fragment_acknowledgments := fa } := h

theorem not_contains_get_none {α β : Type} [DecidableEq α]
    (m : List (α × β)) (k : α) (h : ¬ alContains m k = true) :
    alGet m k = none := by
  revert h
  unfold alContains
  cases alGet m k <;> simp

theorem add_token_to_balInv (s : FaNft) (dst : AccountId) (id : TokenId)
    (u : Unit) (s' : FaNft) (hinv : BalInv s)
    (h : add_token_to s dst id = (.ok u, s')) : BalInv s' := by
  unfold add_token_to at h
  split at h
  · simp at h
  · split at h
    · simp at h
    · rename_i hnc hnz
      have hgn : alGet s.token_owner id = none := not_contains_get_none _ _ hnc
      split at h
      · rename_i c heq
        split at h
        · simp only [Prod.mk.injEq, MsgResult.ok.injEq] at h
          obtain ⟨-, h2⟩ := h
          subst h2
          have hb : balance_of s dst = c := by
            unfold balance_of
            rw [heq]
            rfl
          have hr := balInv_inc s dst id hinv hgn
          rw [hb] at hr
          exact hr
        · simp at h
      · rename_i heq
        simp only [Prod.mk.injEq, MsgResult.ok.injEq] at h
        obtain ⟨-, h2⟩ := h
        subst h2
        have hb : balance_of s dst = 0 := by
          unfold balance_of
          rw [heq]
          rfl
        have hr := balInv_inc s dst id hinv hgn
        rw [hb] at hr
        exact hr

theorem remove_token_from_balInv (s : FaNft) (src : AccountId) (id : TokenId)
    (u : Unit) (s' : FaNft) (hinv : BalInv s)
    (hgo : alGet s.token_owner id = some src)
    (h : remove_token_from s src id = (.ok u, s')) : BalInv s' := by
  unfold remove_token_from at h
  split at h
  · split at h
    · simp at h
    · rename_i c heq
      split at h
      · simp at h
      · simp only [Prod.mk.injEq, MsgResult.ok.injEq] at h
        obtain ⟨-, h2⟩ := h
        subst h2
        exact balInv_dec s src id c hinv hgo heq
  · simp at h

theorem burnInner_balInv (s : FaNft) (caller : AccountId) (id : TokenId)
    (u : Unit) (s' : FaNft) (hinv : BalInv s)
    (h : burnInner s caller id = (.ok u, s')) : BalInv s' := by
  unfold burnInner at h
  split at h
  · simp at h
  · rename_i ownr hgo
    split at h
    · simp at h
    · rename_i hoc
      split at h
      · simp at h
      · rename_i c heq
        split at h
        · simp at h
        · simp only [Prod.mk.injEq, MsgResult.ok.injEq] at h
          obtain ⟨-, h2⟩ := h
          subst h2
          have hoc' : ownr = caller := by
            by_contra hc
            exact hoc hc
          subst hoc'
          exact balInv_dec s ownr id c hinv hgo heq

theorem transfer_token_from_balInv (s : FaNft) (caller src dst : AccountId)
    (id : TokenId) (u : Unit) (s' : FaNft) (hinv : BalInv s)
    (h : transfer_token_from s caller src dst id = (.ok u, s')) : BalInv s' := by
  unfold transfer_token_from at h
  split at h
  · simp at h
  · rename_i ownr hgo
    split at h
    · simp at h
    · split at h
      · simp at h
      · rename_i hno hns
        have hos : ownr = src := by
          by_contra hc
          exact hns hc
        subst hos
        unfold andThen at h
        rcases hr : remove_token_from (clear_approval s id) ownr id with ⟨r1, s1⟩
        rw [hr] at h
        cases r1 with
        | ok u1 =>
          have hinv1 : BalInv (clear_approval s id) := hinv
          have hgo1 : alGet (clear_approval s id).token_owner id = some ownr := hgo
          have h1 : BalInv s1 := remove_token_from_balInv _ ownr id u1 s1 hinv1 hgo1 hr
          exact add_token_to_balInv s1 dst id u s' h1 h
        | err e => simp at h
        | fatal => simp at h

theorem mintInner_balInv (s : FaNft) (caller : AccountId)
    (cid : FragmentCid) (ownr : AccountId) (bn : BlockNumber)
    (id : TokenId) (s' : FaNft) (hinv : BalInv s)
    (h : mintInner s caller cid ownr bn = (.ok id, s')) : BalInv s' := by
  unfold mintInner at h
  split at h
  · unfold andThen at h
    rcases hr : add_token_to { s with
        fragment_acknowledgments := alInsert s.fragment_acknowledgments
          (tokenIdOf cid ownr bn) ⟨cid, bn⟩ } ownr (tokenIdOf cid ownr bn)
      with ⟨r1, s1⟩
    rw [hr] at h
    cases r1 with
    | ok u1 =>
      have hinv1 : BalInv { s with
          fragment_acknowledgments := alInsert s.fragment_acknowledgments
            (tokenIdOf cid ownr bn) ⟨cid, bn⟩ } := hinv
      have h1 := add_token_to_balInv _ ownr (tokenIdOf cid ownr bn) u1 s1 hinv1 hr
      simp only [Prod.mk.injEq, MsgResult.ok.injEq] at h
      obtain ⟨-, h2⟩ := h
      subst h2
      exact h1
    | err e => simp at h
    | fatal => simp at h
  · simp at h

end fa_nft

namespace fa_nft

theorem msgRun_cases {ε α : Type} (s : FaNft) (r : MsgResult ε α × FaNft) :
    (∃ a, r = (.ok a, (msgRun s r).2)) ∨ (msgRun s r).2 = s := by
  rcases r with ⟨r1, s1⟩
  cases r1 <;> simp [msgRun]

theorem message_balInv_aux {α : Type} (s : FaNft)
    (inner : MsgResult Error α × FaNft) (h : BalInv s)
    (hok : ∀ a s1, inner = (.ok a, s1) → BalInv s1) :
    BalInv (msgRun s inner).2 := by
  rcases msgRun_cases s inner with ⟨a, ha⟩ | hs
  · exact hok a _ ha
  · rw [hs]
    exact h

theorem voidRet_snd (r : MsgResult Error Unit × FaNft) : (voidRet r).2 = r.2 := by
  rcases r with ⟨r1, s1⟩
  cases r1 <;> rfl

theorem approve_for_balInv (s : FaNft) (caller dst : AccountId) (id : TokenId)
    (u : Unit) (s' : FaNft) (h : BalInv s)
    (ha : approve_for s caller dst id = (.ok u, s')) : BalInv s' := by
  unfold approve_for at ha
  split at ha
  · simp at ha
  · split at ha
    · simp at ha
    · split at ha
      · simp at ha
      · split at ha
        · simp at ha
        · simp only [Prod.mk.injEq] at ha
          obtain ⟨-, h2⟩ := ha
          subst h2
          exact h

theorem approve_for_all_inner_balInv (s : FaNft) (caller dst : AccountId)
    (approved : Bool) (u : Unit) (s' : FaNft) (h : BalInv s)
    (ha : approve_for_all_inner s caller dst approved = (.ok u, s')) :
    BalInv s' := by
  unfold approve_for_all_inner at ha
  split at ha
  · simp at ha
  · split at ha <;>
    · simp only [Prod.mk.injEq] at ha
      obtain ⟨-, h2⟩ := ha
      subst h2
      exact h

theorem dispatch_balInv (s : FaNft) (caller : AccountId) (op : Op)
    (h : BalInv s) : BalInv (dispatch s caller op).2 := by
  cases op with
  | mint cid ownr bn =>
    have hb : BalInv (mint s caller cid ownr bn).2 := by
      unfold mint
      exact message_balInv_aux s _ h
        (fun id s1 hi => mintInner_balInv s caller cid ownr bn id s1 h hi)
    simp only [dispatch]
    rcases hm : mint s caller cid ownr bn with ⟨r1, s1⟩
    rw [hm] at hb
    cases r1 <;> exact hb
  | burn id =>
    simp only [dispatch]
    rw [voidRet_snd]
    unfold burn
    exact message_balInv_aux s _ h
      (fun u s1 hi => burnInner_balInv s caller id u s1 h hi)
  | transfer dst id =>
    simp only [dispatch]
    rw [voidRet_snd]
    unfold transfer
    exact message_balInv_aux s _ h
      (fun u s1 hi => transfer_token_from_balInv s caller caller dst id u s1 h hi)
  | transfer_from src dst id =>
    simp only [dispatch]
    rw [voidRet_snd]
    unfold transfer_from
    exact message_balInv_aux s _ h
      (fun u s1 hi => transfer_token_from_balInv s caller src dst id u s1 h hi)
  | approve dst id =>
    simp only [dispatch]
    rw [voidRet_snd]
    unfold approve
    exact message_balInv_aux s _ h
      (fun u s1 hi => approve_for_balInv s caller dst id u s1 h hi)
  | set_approval_for_all dst approved =>
    simp only [dispatch]
    rw [voidRet_snd]
    unfold set_approval_for_all
    exact message_balInv_aux s _ h
      (fun u s1 hi => approve_for_all_inner_balInv s caller dst approved u s1 h hi)
  | renounce_ownership =>
    simp only [dispatch]
    rw [voidRet_snd]
    unfold renounce_ownership
    split <;> exact h
  | transfer_ownership new_owner =>
    simp only [dispatch]
    rw [voidRet_snd]
    unfold transfer_ownership
    split <;> exact h
  | transfer_balance dst value env_ok =>
    simp only [dispatch]
    rw [voidRet_snd]
    unfold transfer_balance
    split
    · split <;> exact h
    · exact h

theorem reachable_balInv (s : FaNft) (h : Reachable s) : BalInv s := by
  induction h with
  | init d => exact ⟨by simp [KeysNodup, new], fun a => rfl⟩
  | step s caller op hs ih => exact dispatch_balInv s caller op ih

end fa_nft

namespace fa_nft

theorem msgRun_fst_err {ε α : Type} (s : FaNft) (inner : MsgResult ε α × FaNft)
    (e : ε) (h : (msgRun s inner).1 = .err e) : (msgRun s inner).2 = s := by
  rcases inner with ⟨r1, s1⟩
  cases r1 <;> simp [msgRun] at h ⊢

theorem msgRun_eq_err {ε α : Type} (s : FaNft) (inner : MsgResult ε α × FaNft)
    (e : ε) (s1 : FaNft) (h : msgRun s inner = (.err e, s1)) : s1 = s := by
  rcases inner with ⟨r1, s2⟩
  cases r1 <;> simp [msgRun, Prod.mk.injEq] at h
  exact h.2.symm

theorem voidRet_fst_err (r : MsgResult Error Unit × FaNft) (e : Error)
    (h : (voidRet r).1 = .err e) : r.1 = .err e := by
  rcases r with ⟨r1, s1⟩
  cases r1 <;> simp [voidRet] at h ⊢
  exact h

theorem renounce_fst_not_err (s : FaNft) (caller : AccountId) (e : Error) :
    (renounce_ownership s caller).1 ≠ .err e := by
  unfold renounce_ownership
  split <;> simp

theorem transfer_ownership_fst_not_err (s : FaNft) (caller nw : AccountId)
    (e : Error) : (transfer_ownership s caller nw).1 ≠ .err e := by
  unfold transfer_ownership
  split <;> simp

theorem transfer_balance_fst_not_err (s : FaNft) (caller dst : AccountId)
    (value : Nat) (env_ok : Bool) (e : Error) :
    (transfer_balance s caller dst value env_ok).1 ≠ .err e := by
  unfold transfer_balance
  split
  · split <;> simp
  · simp

end fa_nft

/-- C1: for every ledger state and every state-modifying ledger operation,
if the call returns an error value then the persisted state after the call
is identical to the state before the call (the inner bodies may mutate the
in-memory state first -- mint stores the acknowledgement payload before
`add_token_to` can fail, transfer clears the approval before the move can
fail -- but the message dispatch reverts everything on `Err`). -/
theorem err_reverts_state (s : fa_nft.FaNft) (caller : fa_nft.AccountId)
    (op : fa_nft.Op) (e : fa_nft.Error)
    (h : (fa_nft.dispatch s caller op).1 = .err e) :
    (fa_nft.dispatch s caller op).2 = s := by
  cases op with
  | mint cid ownr bn =>
    simp only [fa_nft.dispatch] at h ⊢
    rcases hm : fa_nft.mint s caller cid ownr bn with ⟨r1, s1⟩
    rw [hm] at h
    cases r1 with
    | ok a =>
      change MsgResult.ok (some a) = MsgResult.err e at h
      exact MsgResult.noConfusion h
    | err e2 =>
      show s1 = s
      exact fa_nft.msgRun_eq_err s _ e2 s1 hm
    | fatal =>
      change MsgResult.fatal = MsgResult.err e at h
      exact MsgResult.noConfusion h
  | burn id =>
    simp only [fa_nft.dispatch] at h ⊢
    rw [fa_nft.voidRet_snd]
    exact fa_nft.msgRun_fst_err s _ e (fa_nft.voidRet_fst_err _ e h)
  | transfer dst id =>
    simp only [fa_nft.dispatch] at h ⊢
    rw [fa_nft.voidRet_snd]
    exact fa_nft.msgRun_fst_err s _ e (fa_nft.voidRet_fst_err _ e h)
  | transfer_from src dst id =>
    simp only [fa_nft.dispatch] at h ⊢
    rw [fa_nft.voidRet_snd]
    exact fa_nft.msgRun_fst_err s _ e (fa_nft.voidRet_fst_err _ e h)
  | approve dst id =>
    simp only [fa_nft.dispatch] at h ⊢
    rw [fa_nft.voidRet_snd]
    exact fa_nft.msgRun_fst_err s _ e (fa_nft.voidRet_fst_err _ e h)
  | set_approval_for_all dst approved =>
    simp only [fa_nft.dispatch] at h ⊢
    rw [fa_nft.voidRet_snd]
    exact fa_nft.msgRun_fst_err s _ e (fa_nft.voidRet_fst_err _ e h)
  | renounce_ownership =>
    simp only [fa_nft.dispatch] at h
    exact absurd (fa_nft.voidRet_fst_err _ e h)
      (fa_nft.renounce_fst_not_err s caller e)
  | transfer_ownership new_owner =>
    simp only [fa_nft.dispatch] at h
    exact absurd (fa_nft.voidRet_fst_err _ e h)
      (fa_nft.transfer_ownership_fst_not_err s caller new_owner e)
  | transfer_balance dst value env_ok =>
    simp only [fa_nft.dispatch] at h
    exact absurd (fa_nft.voidRet_fst_err _ e h)
      (fa_nft.transfer_balance_fst_not_err s caller dst value env_ok e)

/-- C1 witness: burning a nonexistent token on a fresh ledger returns
`TokenNotFound` and, by the claim theorem, leaves the state unchanged. -/
theorem err_reverts_state_witness :
    (fa_nft.dispatch (fa_nft.new 1) 1 (.burn 5)).1 = .err .TokenNotFound ∧
      (fa_nft.dispatch (fa_nft.new 1) 1 (.burn 5)).2 = fa_nft.new 1 :=
  ⟨by decide, err_reverts_state (fa_nft.new 1) 1 (.burn 5) .TokenNotFound (by decide)⟩

/-- C2: in every reachable ledger state and for every account, `balance_of`
equals the number of token-owner entries whose current owner is that
account (keys are distinct in every reachable state, so entries correspond
to token ids). -/
theorem balance_count_invariant (s : fa_nft.FaNft) (h : fa_nft.Reachable s)
    (a : fa_nft.AccountId) :
    fa_nft.balance_of s a = fa_nft.countOwned s.token_owner a :=
  (fa_nft.reachable_balInv s h).2 a

/-- C2 witness: the state after one successful mint is reachable and the
claim theorem applies to the recipient account there. -/
theorem balance_count_invariant_witness :
    fa_nft.balance_of (fa_nft.dispatch (fa_nft.new 1) 1 (.mint 5 2 7)).2 2 =
      fa_nft.countOwned (fa_nft.dispatch (fa_nft.new 1) 1 (.mint 5 2 7)).2.token_owner 2 :=
  balance_count_invariant (fa_nft.dispatch (fa_nft.new 1) 1 (.mint 5 2 7)).2
    (fa_nft.Reachable.step (fa_nft.new 1) 1 (fa_nft.Op.mint 5 2 7)
      (fa_nft.Reachable.init 1)) 2

namespace fa_nft

theorem msgRun_eq_ok {ε α : Type} (s : FaNft) (inner : MsgResult ε α × FaNft)
    (a : α) (s1 : FaNft) (h : msgRun s inner = (.ok a, s1)) :
    inner = (.ok a, s1) := by
  rcases inner with ⟨r1, s2⟩
  cases r1 <;> simp [msgRun, Prod.mk.injEq] at h ⊢
  exact h

theorem add_token_to_ok_shape (s : FaNft) (dst : AccountId) (id : TokenId)
    (u : Unit) (s' : FaNft) (h : add_token_to s dst id = (.ok u, s')) :
    alContains s.token_owner id = false ∧ dst ≠ 0 ∧
      ∃ c, s' = { s with
        owned_tokens_count := alInsert s.owned_tokens_count dst c
        token_owner := alInsert s.token_owner id dst } := by
  unfold add_token_to at h
  split at h
  · simp at h
  · rename_i hnc
    split at h
    · simp at h
    · rename_i hnz
      refine ⟨by revert hnc; cases alContains s.token_owner id <;> simp, hnz, ?_⟩
      split at h
      · split at h
        · rename_i c heq hlt
          simp only [Prod.mk.injEq] at h
          exact ⟨c + 1, h.2.symm⟩
        · simp at h
      · simp only [Prod.mk.injEq] at h
        exact ⟨1, h.2.symm⟩

theorem mintInner_ok_facts (s : FaNft) (caller : AccountId)
    (cid : FragmentCid) (ownr : AccountId) (bn : BlockNumber)
    (id : TokenId) (s1 : FaNft)
    (h : mintInner s caller cid ownr bn = (.ok id, s1)) :
    s.contract_owner = caller ∧ id = tokenIdOf cid ownr bn ∧
      alGet s1.token_owner id = some ownr ∧
      s1.contract_owner = s.contract_owner := by
  unfold mintInner at h
  split at h
  · rename_i hco
    unfold andThen at h
    rcases hr : add_token_to { s with
        fragment_acknowledgments := alInsert s.fragment_acknowledgments
          (tokenIdOf cid ownr bn) ⟨cid, bn⟩ } ownr (tokenIdOf cid ownr bn)
      with ⟨r1, s2⟩
    rw [hr] at h
    cases r1 with
    | ok u =>
      change (MsgResult.ok (tokenIdOf cid ownr bn), s2) = (MsgResult.ok id, s1) at h
      simp only [Prod.mk.injEq, MsgResult.ok.injEq] at h
      obtain ⟨hid, hs⟩ := h
      subst hs
      obtain ⟨-, -, c, hshape⟩ := add_token_to_ok_shape _ ownr (tokenIdOf cid ownr bn) u s2 hr
      subst hshape
      refine ⟨hco, hid.symm, ?_, rfl⟩
      dsimp only
      rw [← hid]
      exact alGet_insert_self _ (tokenIdOf cid ownr bn) ownr
    | err e =>
      change (MsgResult.err e, s2) = (MsgResult.ok id, s1) at h
      simp at h
    | fatal =>
      change (MsgResult.fatal, s2) = (MsgResult.ok id, s1) at h
      simp at h
  · simp at h

end fa_nft

/-- C4: minting the same (fragment-cid, recipient, block-number) triple
twice: if the first privileged mint succeeds, the second call returns
`TokenExists` and the persisted state after the second call equals the
state after the first call. -/
theorem mint_twice_token_exists (s : fa_nft.FaNft)
    (caller : fa_nft.AccountId) (cid : fa_nft.FragmentCid)
    (ownr : fa_nft.AccountId) (bn : fa_nft.BlockNumber)
    (id : fa_nft.TokenId) (s1 : fa_nft.FaNft) (_hnz : ownr ≠ 0)
    (hok : fa_nft.mint s caller cid ownr bn = (.ok id, s1)) :
    fa_nft.mint s1 caller cid ownr bn = (.err .TokenExists, s1) := by
  have hinner := fa_nft.msgRun_eq_ok s _ id s1 hok
  obtain ⟨hco, hid, hown, hco1⟩ :=
    fa_nft.mintInner_ok_facts s caller cid ownr bn id s1 hinner
  subst hid
  have hcont : alContains s1.token_owner (fa_nft.tokenIdOf cid ownr bn) = true := by
    unfold alContains
    rw [hown]
    rfl
  have hmi : fa_nft.mintInner s1 caller cid ownr bn =
      (.err .TokenExists, { s1 with
        fragment_acknowledgments := alInsert s1.fragment_acknowledgments
          (fa_nft.tokenIdOf cid ownr bn) ⟨cid, bn⟩ }) := by
    unfold fa_nft.mintInner
    rw [if_pos (hco1.trans hco)]
    have hadd : fa_nft.add_token_to { s1 with
        fragment_acknowledgments := alInsert s1.fragment_acknowledgments
          (fa_nft.tokenIdOf cid ownr bn) ⟨cid, bn⟩ } ownr
        (fa_nft.tokenIdOf cid ownr bn) =
        (.err .TokenExists, { s1 with
          fragment_acknowledgments := alInsert s1.fragment_acknowledgments
            (fa_nft.tokenIdOf cid ownr bn) ⟨cid, bn⟩ }) := by
      unfold fa_nft.add_token_to
      rw [if_pos hcont]
    unfold fa_nft.andThen
    rw [hadd]
  unfold fa_nft.mint
  rw [hmi]
  rfl

set_option maxRecDepth 40000 in
/-- C4 witness: a concrete double mint on a fresh ledger. -/
theorem mint_twice_token_exists_witness :
    fa_nft.mint (fa_nft.mint (fa_nft.new 1) 1 5 2 7).2 1 5 2 7 =
      (.err .TokenExists, (fa_nft.mint (fa_nft.new 1) 1 5 2 7).2) :=
  mint_twice_token_exists (fa_nft.new 1) 1 5 2 7 (fa_nft.tokenIdOf 5 2 7)
    (fa_nft.mint (fa_nft.new 1) 1 5 2 7).2 (by decide) (by decide)

namespace fa_nft

theorem approved_or_owner_true_iff (s : FaNft) (frm : AccountId)
    (id : TokenId) (ownr : AccountId) :
    approved_or_owner s frm id ownr = true ↔
      frm ≠ 0 ∧ (frm = ownr ∨ alGet s.token_approvals id = some frm ∨
        approved_for_all s ownr frm = true) := by
  simp [approved_or_owner, Bool.and_eq_true, Bool.or_eq_true, decide_eq_true_eq,
    or_assoc]

theorem remove_token_from_err_cases (s : FaNft) (src : AccountId)
    (id : TokenId) (e : Error) (s' : FaNft)
    (h : remove_token_from s src id = (.err e, s')) :
    e = .TokenNotFound ∨ e = .CannotFetchValue := by
  unfold remove_token_from at h
  split at h
  · split at h
    · simp only [Prod.mk.injEq, MsgResult.err.injEq] at h
      exact Or.inr h.1.symm
    · split at h
      · simp at h
      · simp at h
  · simp only [Prod.mk.injEq, MsgResult.err.injEq] at h
    exact Or.inl h.1.symm

theorem add_token_to_err_cases (s : FaNft) (dst : AccountId) (id : TokenId)
    (e : Error) (s' : FaNft) (h : add_token_to s dst id = (.err e, s')) :
    e = .TokenExists ∨ e = .NotAllowed := by
  unfold add_token_to at h
  split at h
  · simp only [Prod.mk.injEq, MsgResult.err.injEq] at h
    exact Or.inl h.1.symm
  · split at h
    · simp only [Prod.mk.injEq, MsgResult.err.injEq] at h
      exact Or.inr h.1.symm
    · split at h
      · split at h
        · simp at h
        · simp at h
      · simp at h

theorem transfer_tail_ne_NotApproved (s : FaNft) (src dst : AccountId)
    (id : TokenId) :
    (andThen (remove_token_from (clear_approval s id) src id)
      (fun _ s2 => add_token_to s2 dst id)).1 ≠ .err .NotApproved := by
  unfold andThen
  rcases hr : remove_token_from (clear_approval s id) src id with ⟨r1, s1⟩
  cases r1 with
  | ok u =>
    intro hc
    change (add_token_to s1 dst id).1 = MsgResult.err Error.NotApproved at hc
    rcases ha : add_token_to s1 dst id with ⟨r2, s2⟩
    rw [ha] at hc
    cases r2 with
    | ok u2 => simp at hc
    | err e2 =>
      simp only [MsgResult.err.injEq] at hc
      rcases add_token_to_err_cases s1 dst id e2 s2 ha with h | h <;> simp [h] at hc
    | fatal => simp at hc
  | err e =>
    intro hc
    change MsgResult.err e = MsgResult.err Error.NotApproved at hc
    simp only [MsgResult.err.injEq] at hc
    rcases remove_token_from_err_cases _ src id e s1 hr with h | h <;> simp [h] at hc
  | fatal =>
    intro hc
    change MsgResult.fatal = MsgResult.err Error.NotApproved at hc
    exact MsgResult.noConfusion hc

end fa_nft

/-- C3 counterexample: in a state where token 1 is owned by account 1 and
the null account 0 is an operator-approved delegate of account 1, the
three-way disjunction (owner OR delegate OR operator) holds for caller 0,
yet `transfer_from` still returns `NotApproved`: the source check also
requires the caller to be non-null, so the claim's "for every caller
account including the null account" fails. -/
theorem auth_null_operator_counterexample :
    fa_nft.owner_of ⟨[(1, 1)], [], [(1, 1)], [((1, 0), ())], 1, []⟩ 1 = some 1 ∧
      fa_nft.is_approved_for_all ⟨[(1, 1)], [], [(1, 1)], [((1, 0), ())], 1, []⟩ 1 0 = true ∧
      (fa_nft.transfer_from ⟨[(1, 1)], [], [(1, 1)], [((1, 0), ())], 1, []⟩ 0 1 2 1).1 =
        .err .NotApproved := by
  decide

/-- C3 (amended): for every state, owned token and caller, the transfer
authorization check passes (the call does not return `NotApproved`) if and
only if the caller is NON-NULL and is the token's current owner, or its
approved delegate, or an operator approved by the current owner. -/
theorem approved_or_owner_iff (s : fa_nft.FaNft)
    (caller src dst : fa_nft.AccountId) (id : fa_nft.TokenId)
    (ownr : fa_nft.AccountId) (hown : alGet s.token_owner id = some ownr) :
    (fa_nft.transfer_token_from s caller src dst id).1 ≠ .err .NotApproved ↔
      (caller ≠ 0 ∧ (caller = ownr ∨ alGet s.token_approvals id = some caller ∨
        fa_nft.approved_for_all s ownr caller = true)) := by
  rw [← fa_nft.approved_or_owner_true_iff s caller id ownr]
  unfold fa_nft.transfer_token_from
  rw [hown]
  dsimp only
  cases hao : fa_nft.approved_or_owner s caller id ownr
  · rw [if_pos rfl]
    simp
  · rw [if_neg (by simp)]
    constructor
    · intro _
      rfl
    · intro _
      split
      · simp
      · exact fa_nft.transfer_tail_ne_NotApproved s src dst id

/-- C3 witness: the owner of a concrete token passes the amended
authorization characterisation. -/
theorem approved_or_owner_iff_witness :
    (fa_nft.transfer_token_from ⟨[(4, 9)], [], [(9, 1)], [], 9, []⟩ 9 9 3 4).1 ≠
        .err .NotApproved ↔
      (9 ≠ 0 ∧ ((9 : Nat) = 9 ∨
        alGet (fa_nft.FaNft.token_approvals ⟨[(4, 9)], [], [(9, 1)], [], 9, []⟩) 4 = some 9 ∨
        fa_nft.approved_for_all ⟨[(4, 9)], [], [(9, 1)], [], 9, []⟩ 9 9 = true)) :=
  approved_or_owner_iff ⟨[(4, 9)], [], [(9, 1)], [], 9, []⟩ 9 9 3 4 9 (by decide)

namespace fa_nft

theorem remove_token_from_ok_shape (s : FaNft) (src : AccountId)
    (id : TokenId) (u : Unit) (s' : FaNft)
    (h : remove_token_from s src id = (.ok u, s')) :
    ∃ c, alGet s.owned_tokens_count src = some c ∧ c ≠ 0 ∧
      s' = { s with
        owned_tokens_count := alInsert s.owned_tokens_count src (c - 1)
        token_owner := alRemove s.token_owner id } := by
  unfold remove_token_from at h
  split at h
  · split at h
    · simp at h
    · rename_i c heq
      split at h
      · simp at h
      · rename_i hcz
        simp only [Prod.mk.injEq] at h
        exact ⟨c, heq, hcz, h.2.symm⟩
  · simp at h

theorem burnInner_ok_shape (s : FaNft) (caller : AccountId) (id : TokenId)
    (u : Unit) (s' : FaNft) (h : burnInner s caller id = (.ok u, s')) :
    ∃ c, alGet s.token_owner id = some caller ∧
      alGet s.owned_tokens_count caller = some c ∧ c ≠ 0 ∧
      s' = { s with
        owned_tokens_count := alInsert s.owned_tokens_count caller (c - 1)
        token_owner := alRemove s.token_owner id } := by
  unfold burnInner at h
  split at h
  · simp at h
  · rename_i ownr hgo
    split at h
    · simp at h
    · rename_i hoc
      split at h
      · simp at h
      · rename_i c heq
        split at h
        · simp at h
        · rename_i hcz
          simp only [Prod.mk.injEq] at h
          have hoc' : ownr = caller := by
            by_contra hcn
            exact hoc hcn
          subst hoc'
          exact ⟨c, hgo, heq, hcz, h.2.symm⟩

theorem transfer_token_from_ok_approvals (s : FaNft)
    (caller src dst : AccountId) (id : TokenId) (u : Unit) (s' : FaNft)
    (h : transfer_token_from s caller src dst id = (.ok u, s')) :
    alGet s'.token_approvals id = none := by
  unfold transfer_token_from at h
  split at h
  · simp at h
  · rename_i ownr hgo
    split at h
    · simp at h
    · split at h
      · simp at h
      · unfold andThen at h
        rcases hr : remove_token_from (clear_approval s id) src id with ⟨r1, s1⟩
        rw [hr] at h
        cases r1 with
        | ok u1 =>
          change add_token_to s1 dst id = (MsgResult.ok u, s') at h
          obtain ⟨c1, -, -, hs1⟩ :=
            remove_token_from_ok_shape (clear_approval s id) src id u1 s1 hr
          obtain ⟨-, -, c2, hs2⟩ := add_token_to_ok_shape s1 dst id u s' h
          subst hs2
          subst hs1
          show alGet (alRemove s.token_approvals id) id = none
          exact alGet_remove_self s.token_approvals id
        | err e =>
          change (MsgResult.err e, s1) = (MsgResult.ok u, s') at h
          simp at h
        | fatal =>
          change (MsgResult.fatal, s1) = (MsgResult.ok u, s') at h
          simp at h

end fa_nft

/-- C6 counterexample: burning token 1 (owned by account 10, with approval
entry for account 20) succeeds but does NOT clear the approval:
`get_approved` still returns `some 20` after the burn, so the claim fails
for burn. -/
theorem burn_keeps_approval_counterexample :
    (fa_nft.burn ⟨[(1, 10)], [(1, 20)], [(10, 1)], [], 10, []⟩ 10 1).1 = .ok () ∧
      fa_nft.get_approved
        (fa_nft.burn ⟨[(1, 10)], [(1, 20)], [(10, 1)], [], 10, []⟩ 10 1).2 1 =
        some 20 := by
  decide

/-- C6 (amended): after every successful `transfer` or `transfer_from` the
token's approval entry is cleared (`get_approved` returns `none`), while a
successful `burn` leaves the whole approval map unchanged (the source's
`burn` never touches `token_approvals`). -/
theorem transfer_clears_approval_burn_keeps :
    (∀ (s : fa_nft.FaNft) (caller dst : fa_nft.AccountId)
      (id : fa_nft.TokenId) (u : Unit) (s1 : fa_nft.FaNft),
      fa_nft.transfer s caller dst id = (.ok u, s1) →
        fa_nft.get_approved s1 id = none) ∧
    (∀ (s : fa_nft.FaNft) (caller src dst : fa_nft.AccountId)
      (id : fa_nft.TokenId) (u : Unit) (s1 : fa_nft.FaNft),
      fa_nft.transfer_from s caller src dst id = (.ok u, s1) →
        fa_nft.get_approved s1 id = none) ∧
    (∀ (s : fa_nft.FaNft) (caller : fa_nft.AccountId) (id : fa_nft.TokenId)
      (u : Unit) (s1 : fa_nft.FaNft),
      fa_nft.burn s caller id = (.ok u, s1) →
        s1.token_approvals = s.token_approvals) := by
  refine ⟨?_, ?_, ?_⟩
  · intro s caller dst id u s1 h
    exact fa_nft.transfer_token_from_ok_approvals s caller caller dst id u s1
      (fa_nft.msgRun_eq_ok s _ u s1 h)
  · intro s caller src dst id u s1 h
    exact fa_nft.transfer_token_from_ok_approvals s caller src dst id u s1
      (fa_nft.msgRun_eq_ok s _ u s1 h)
  · intro s caller id u s1 h
    obtain ⟨c, -, -, -, hs⟩ := fa_nft.burnInner_ok_shape s caller id u s1
      (fa_nft.msgRun_eq_ok s _ u s1 h)
    subst hs
    rfl

/-- C6 witness: a concrete successful transfer after an approval; the
approval entry is gone afterwards. -/
theorem transfer_clears_approval_burn_keeps_witness :
    fa_nft.get_approved
      (fa_nft.transfer ⟨[(1, 10)], [(1, 20)], [(10, 1)], [], 10, []⟩ 10 7 1).2 1 =
      none :=
  transfer_clears_approval_burn_keeps.1 ⟨[(1, 10)], [(1, 20)], [(10, 1)], [], 10, []⟩
    10 7 1 ()
    (fa_nft.transfer ⟨[(1, 10)], [(1, 20)], [(10, 1)], [], 10, []⟩ 10 7 1).2
    (by decide)

/-- C7 counterexample: token 1 is owned by account 5 but account 5 has no
stored token count; `burn` by account 5 returns the ordinary business error
`CannotFetchValue` with the state unchanged -- it does NOT panic/abort, so
the claim that an absent count aborts unconditionally fails. -/
theorem burn_missing_count_counterexample :
    fa_nft.burn ⟨[(1, 5)], [], [], [], 9, []⟩ 5 1 =
      (.err .CannotFetchValue, ⟨[(1, 5)], [], [], [], 9, []⟩) := by
  decide

/-- C7 (amended): when burn's ownership check passes, an ABSENT stored
count is converted into the returned business error `CannotFetchValue`
(state unchanged); only a PRESENT count of zero hits the
`checked_sub(1).unwrap()` underflow and aborts the unit of work (panic /
rollback). -/
theorem burn_count_error_behaviour (s : fa_nft.FaNft)
    (caller : fa_nft.AccountId) (id : fa_nft.TokenId)
    (hown : alGet s.token_owner id = some caller) :
    (alGet s.owned_tokens_count caller = none →
      fa_nft.burn s caller id = (.err .CannotFetchValue, s)) ∧
    (alGet s.owned_tokens_count caller = some 0 →
      fa_nft.burn s caller id = (.fatal, s)) := by
  constructor
  · intro hc
    unfold fa_nft.burn fa_nft.burnInner
    rw [hown]
    dsimp only
    rw [if_neg (fun hne => hne rfl), hc]
    rfl
  · intro hc
    unfold fa_nft.burn fa_nft.burnInner
    rw [hown]
    dsimp only
    rw [if_neg (fun hne => hne rfl), hc]
    rfl

/-- C7 witness: both amended behaviours at concrete states. -/
theorem burn_count_error_behaviour_witness :
    fa_nft.burn ⟨[(2, 8)], [], [], [], 9, []⟩ 8 2 =
      (.err .CannotFetchValue, ⟨[(2, 8)], [], [], [], 9, []⟩) ∧
    fa_nft.burn ⟨[(2, 8)], [], [(8, 0)], [], 9, []⟩ 8 2 =
      (.fatal, ⟨[(2, 8)], [], [(8, 0)], [], 9, []⟩) :=
  ⟨(burn_count_error_behaviour ⟨[(2, 8)], [], [], [], 9, []⟩ 8 2 (by decide)).1
      (by decide),
   (burn_count_error_behaviour ⟨[(2, 8)], [], [(8, 0)], [], 9, []⟩ 8 2 (by decide)).2
      (by decide)⟩

/-- C8 counterexample: after a successful `renounce_ownership` the role
holds the null account, and `is_owner` applied to the null account itself
returns TRUE (the source compares `contract_owner == account`), refuting
the claim that `is_owner(a)` is false for every account including null. -/
theorem renounce_null_is_owner_counterexample :
    (fa_nft.renounce_ownership (fa_nft.new 1) 1).1 = .ok () ∧
      fa_nft.is_owner (fa_nft.renounce_ownership (fa_nft.new 1) 1).2 0 = true := by
  decide

/-- C8 (amended): after a successful `renounce_ownership` the privileged
role holds the null account and every NON-NULL account fails `is_owner`;
the null account is the only value passing `is_owner`, and it is the
reserved sentinel that cannot originate calls. -/
theorem renounce_disables_nonnull (s : fa_nft.FaNft)
    (caller : fa_nft.AccountId) (u : Unit) (s1 : fa_nft.FaNft)
    (h : fa_nft.renounce_ownership s caller = (.ok u, s1)) :
    s1.contract_owner = 0 ∧
      ∀ a, a ≠ 0 → fa_nft.is_owner s1 a = false := by
  unfold fa_nft.renounce_ownership at h
  split at h
  · simp only [Prod.mk.injEq] at h
    obtain ⟨-, h2⟩ := h
    subst h2
    refine ⟨rfl, ?_⟩
    intro a ha
    show ((0 : Nat) == a) = false
    rw [beq_eq_false_iff_ne]
    exact fun hc => ha hc.symm
  · simp at h

/-- C8 witness: renouncing on a fresh ledger, then checking a non-null
account. -/
theorem renounce_disables_nonnull_witness :
    (fa_nft.renounce_ownership (fa_nft.new 1) 1).2.contract_owner = 0 ∧
      fa_nft.is_owner (fa_nft.renounce_ownership (fa_nft.new 1) 1).2 1 = false :=
  ⟨(renounce_disables_nonnull (fa_nft.new 1) 1 ()
      (fa_nft.renounce_ownership (fa_nft.new 1) 1).2 (by decide)).1,
   (renounce_disables_nonnull (fa_nft.new 1) 1 ()
      (fa_nft.renounce_ownership (fa_nft.new 1) 1).2 (by decide)).2 1 (by decide)⟩

/-- C10: a successful burn modifies only the token-owner map and the
caller's token count: the acknowledgement map, the approval map, the
operator map and the contract owner are untouched, `owner_of` and
`get_fa_info` become `none` for the burned id, and
`get_fragment_acknowledgment` still returns the pre-burn payload. -/
theorem burn_frame (s : fa_nft.FaNft) (caller : fa_nft.AccountId)
    (id : fa_nft.TokenId) (u : Unit) (s1 : fa_nft.FaNft)
    (h : fa_nft.burn s caller id = (.ok u, s1)) :
    s1.fragment_acknowledgments = s.fragment_acknowledgments ∧
      s1.token_approvals = s.token_approvals ∧
      s1.operator_approvals = s.operator_approvals ∧
      s1.contract_owner = s.contract_owner ∧
      fa_nft.owner_of s1 id = none ∧
      fa_nft.get_fa_info s1 id = none ∧
      fa_nft.get_fragment_acknowledgment s1 id =
        fa_nft.get_fragment_acknowledgment s id := by
  obtain ⟨c, hgo, hc, hcz, hs⟩ := fa_nft.burnInner_ok_shape s caller id u s1
    (fa_nft.msgRun_eq_ok s _ u s1 h)
  subst hs
  refine ⟨rfl, rfl, rfl, rfl, ?_, ?_, rfl⟩
  · exact alGet_remove_self s.token_owner id
  · unfold fa_nft.get_fa_info
    have hnone : alGet (alRemove s.token_owner id) id = none :=
      alGet_remove_self s.token_owner id
    dsimp only
    rw [hnone]
    cases alGet s.fragment_acknowledgments id <;> rfl

/-- C10 witness: a concrete burn of a minted-style token with a stored
acknowledgement payload. -/
theorem burn_frame_witness :
    fa_nft.owner_of
        (fa_nft.burn ⟨[(3, 6)], [], [(6, 1)], [], 9, [(3, ⟨5, 11⟩)]⟩ 6 3).2 3 =
        none ∧
      fa_nft.get_fragment_acknowledgment
        (fa_nft.burn ⟨[(3, 6)], [], [(6, 1)], [], 9, [(3, ⟨5, 11⟩)]⟩ 6 3).2 3 =
        fa_nft.get_fragment_acknowledgment
          ⟨[(3, 6)], [], [(6, 1)], [], 9, [(3, ⟨5, 11⟩)]⟩ 3 :=
  ⟨(burn_frame ⟨[(3, 6)], [], [(6, 1)], [], 9, [(3, ⟨5, 11⟩)]⟩ 6 3 ()
      (fa_nft.burn ⟨[(3, 6)], [], [(6, 1)], [], 9, [(3, ⟨5, 11⟩)]⟩ 6 3).2
      (by decide)).2.2.2.2.1,
   (burn_frame ⟨[(3, 6)], [], [(6, 1)], [], 9, [(3, ⟨5, 11⟩)]⟩ 6 3 ()
      (fa_nft.burn ⟨[(3, 6)], [], [(6, 1)], [], 9, [(3, ⟨5, 11⟩)]⟩ 6 3).2
      (by decide)).2.2.2.2.2.2⟩

theorem toLEBytes_lt (n : Nat) : ∀ (v : Nat), ∀ b ∈ toLEBytes n v, b < 256 := by
  induction n with
  | zero =>
    intro v b hb
    cases hb
  | succ n ih =>
    intro v b hb
    rw [toLEBytes] at hb
    rcases List.mem_cons.mp hb with h | h
    · subst h
      exact Nat.mod_lt _ (by norm_num)
    · exact ih (v / 256) b h

theorem foldl_be_lt (l : List Nat) :
    ∀ acc, (∀ b ∈ l, b < 256) →
      List.foldl (fun acc b => acc * 256 + b) acc l < (acc + 1) * 256 ^ l.length := by
  induction l with
  | nil =>
    intro acc _
    simp only [List.foldl_nil, List.length_nil, pow_zero, mul_one]
    omega
  | cons b t ih =>
    intro acc hb
    have hbb : b < 256 := hb b (List.mem_cons_self b t)
    have ht := ih (acc * 256 + b) (fun x hx => hb x (List.mem_cons_of_mem b hx))
    have hle : (acc * 256 + b + 1) * 256 ^ t.length ≤
        (acc + 1) * 256 ^ (b :: t).length := by
      rw [List.length_cons, pow_succ]
      calc (acc * 256 + b + 1) * 256 ^ t.length
          ≤ ((acc + 1) * 256) * 256 ^ t.length :=
            Nat.mul_le_mul_right _ (by omega)
        _ = (acc + 1) * (256 ^ t.length * 256) := by ring
    exact lt_of_lt_of_le ht hle

theorem fromBEBytes_lt (l : List Nat) (hb : ∀ b ∈ l, b < 256)
    (hlen : l.length ≤ 8) : fromBEBytes l < 2 ^ 64 := by
  have h := foldl_be_lt l 0 hb
  have hpow : (256 : Nat) ^ l.length ≤ 256 ^ 8 :=
    Nat.pow_le_pow_right (by norm_num) hlen
  have h64 : (256 : Nat) ^ 8 = 2 ^ 64 := by norm_num
  unfold fromBEBytes
  omega

theorem blake2x128_bytes_lt (msg : List Nat) :
    ∀ b ∈ blake2x128 msg, b < 256 := by
  intro b hb
  unfold blake2x128 at hb
  dsimp only at hb
  rcases List.mem_append.mp hb with h | h
  · exact toLEBytes_lt 8 _ b h
  · exact toLEBytes_lt 8 _ b h

/-- C9: the derived TokenId equals the first 8 bytes of the Blake2-128
digest of the concatenated canonical (SCALE) encodings of the three
inputs, read as a big-endian u64; the result fits in 64 bits and the
derivation is a pure deterministic function of its inputs. -/
theorem token_id_derivation (cid : fa_nft.FragmentCid)
    (ownr : fa_nft.AccountId) (bn : fa_nft.BlockNumber) :
    fa_nft.tokenIdOf cid ownr bn =
      fromBEBytes ((blake2x128 (fa_nft.encodeU32 cid ++ fa_nft.encodeAccount ownr ++
        fa_nft.encodeU32 bn)).take 8) ∧
    fa_nft.tokenIdOf cid ownr bn < 2 ^ 64 ∧
    ∀ cid2 ownr2 bn2, cid = cid2 → ownr = ownr2 → bn = bn2 →
      fa_nft.tokenIdOf cid ownr bn = fa_nft.tokenIdOf cid2 ownr2 bn2 := by
  refine ⟨rfl, ?_, ?_⟩
  · unfold fa_nft.tokenIdOf
    apply fromBEBytes_lt
    · intro b hb
      exact blake2x128_bytes_lt _ b (List.take_subset 8 _ hb)
    · rw [List.length_take]
      exact min_le_left _ _
  · intro cid2 ownr2 bn2 h1 h2 h3
    rw [h1, h2, h3]

/-- C9 witness: the bound and determinism at a concrete input. -/
theorem token_id_derivation_witness :
    fa_nft.tokenIdOf 5 2 7 < 2 ^ 64 ∧
      fa_nft.tokenIdOf 5 2 7 = fa_nft.tokenIdOf 5 2 7 :=
  ⟨(token_id_derivation 5 2 7).2.1, (token_id_derivation 5 2 7).2.2 5 2 7 rfl rfl rfl⟩

/-- C5: `claim_fragment` error routing, proved for every behaviour of the
external MMR verifier and external sha3 leaf hash: an unknown cid yields
`NotFound` no matter what the verifier would do (it is never consulted); a
verifier abort yields `CantBeProven`; a completed verification with a
non-matching root yields `ProofInvalid`; and on success the ledger's
`mint(cid, caller, block_number)` message is invoked (with the round
contract as the ledger's caller) and any ledger error is returned wrapped
as `FaNFT`, never discarded. -/
theorem claim_fragment_routing (verify : fragments_round.VerifyFn)
    (sha3 : List Nat → List Nat) (r : fragments_round.FragmentsRound)
    (nft : fa_nft.FaNft) (self_acc caller block_number mmr_size : Nat)
    (proof_items : List (List Nat)) (cid : Nat) (hash : List Nat) :
    (r.fragments.find? (fun f => f.cid == cid) = none →
      fragments_round.claim_fragment verify sha3 r nft self_acc caller
        block_number mmr_size proof_items cid hash = (.err .NotFound, nft)) ∧
    (∀ frag, r.fragments.find? (fun f => f.cid == cid) = some frag →
      (verify mmr_size proof_items r.mmr_root [(frag.mmr_pos, sha3 hash)] =
          .error () →
        fragments_round.claim_fragment verify sha3 r nft self_acc caller
          block_number mmr_size proof_items cid hash = (.err .CantBeProven, nft)) ∧
      (verify mmr_size proof_items r.mmr_root [(frag.mmr_pos, sha3 hash)] =
          .ok false →
        fragments_round.claim_fragment verify sha3 r nft self_acc caller
          block_number mmr_size proof_items cid hash = (.err .ProofInvalid, nft)) ∧
      (verify mmr_size proof_items r.mmr_root [(frag.mmr_pos, sha3 hash)] =
          .ok true →
        fragments_round.claim_fragment verify sha3 r nft self_acc caller
          block_number mmr_size proof_items cid hash =
          (match fa_nft.mint nft self_acc cid caller block_number with
            | (.ok _, nft1) => (.ok (), nft1)
            | (.err e, nft1) => (.err (.FaNFT e), nft1)
            | (.fatal, nft1) => (.fatal, nft1)))) := by
  constructor
  · intro hf
    have hg : fragments_round.get_fragment r cid = .error .NotFound := by
      unfold fragments_round.get_fragment
      rw [hf]
    unfold fragments_round.claim_fragment
    rw [hg]
  · intro frag hf
    have hg : fragments_round.get_fragment r cid = .ok frag := by
      unfold fragments_round.get_fragment
      rw [hf]
    refine ⟨?_, ?_, ?_⟩
    · intro hv
      unfold fragments_round.claim_fragment
      rw [hg]
      dsimp only
      rw [hv]
    · intro hv
      unfold fragments_round.claim_fragment
      rw [hg]
      dsimp only
      rw [hv]
    · intro hv
      unfold fragments_round.claim_fragment
      rw [hg]
      dsimp only
      rw [hv]
      rfl

/-- C5 witness: with an empty fragment list every claim, for every
verifier behaviour, is `NotFound`. -/
theorem claim_fragment_routing_witness :
    fragments_round.claim_fragment (fun _ _ _ _ => .ok true) (fun x => x)
      ⟨[], 3, [9], 1⟩ (fa_nft.new 1) 3 4 0 1 [] 7 [] =
      (.err .NotFound, fa_nft.new 1) :=
  (claim_fragment_routing (fun _ _ _ _ => .ok true) (fun x => x) ⟨[], 3, [9], 1⟩
    (fa_nft.new 1) 3 4 0 1 [] 7 []).1 rfl
